import Mathlib

/-!
Verification of the lexical context engine (`src/utils/contextUtil.ts`) and the
component declaration parser / path resolver (`src/entities/component.ts`) of the
vscode-cfml repository.

Documents are modelled as `List Char` (the flattened text, `'\n'` separating
lines).  `Pos`/`Rng` model the editor's `Position`/`Range` values; `posAt`
models `TextDocument.positionAt` (offset to line/character conversion) and
`offsetAt` models `TextDocument.offsetAt`.
-/

namespace CFML

/-- line/character position, zero based (vscode `Position`). -/
structure Pos where
  line : Nat
  char : Nat
deriving DecidableEq, Repr

/-- `Position.isBeforeOrEqual`: lexicographic order on (line, character). -/
def Pos.isBeforeOrEqual (p q : Pos) : Bool :=
  decide (p.line < q.line) || (decide (p.line = q.line) && decide (p.char ≤ q.char))

/-- half open text range (vscode `Range`). -/
structure Rng where
  start : Pos
  stop : Pos
deriving DecidableEq, Repr

/-- `Range.contains(position)`: inclusive of both boundaries. -/
def Rng.containsPos (r : Rng) (p : Pos) : Bool :=
  r.start.isBeforeOrEqual p && p.isBeforeOrEqual r.stop

/-- `Range.contains(range)`: containment of both end points. -/
def Rng.containsRng (r inner : Rng) : Bool :=
  r.start.isBeforeOrEqual inner.start && inner.stop.isBeforeOrEqual r.stop

/-- character of the document at an offset (`documentText.charAt(offset)`);
out-of-range reads never happen on the scanned window. -/
def charAt (doc : List Char) (i : Nat) : Char :=
  doc.getD i (Char.ofNat 0)

/-- `TextDocument.positionAt`: the line is the number of newline characters
before the offset, the character is the distance from the last newline. -/
def posAt (doc : List Char) (off : Nat) : Pos :=
  ⟨(doc.take off).count '\n', ((doc.take off).reverse.takeWhile (fun c => c ≠ '\n')).length⟩

/-- `TextDocument.offsetAt`: first offset whose position is at or past `p`. -/
def offsetAtAux : List Char → Pos → Pos → Nat → Nat
  | [], _, _, i => i
  | c :: rest, cur, p, i =>
      if p.isBeforeOrEqual cur then i
      else offsetAtAux rest (if c = '\n' then ⟨cur.line + 1, 0⟩ else ⟨cur.line, cur.char + 1⟩) p (i + 1)

/-- `TextDocument.offsetAt` over the whole document. -/
def offsetAt (doc : List Char) (p : Pos) : Nat :=
  offsetAtAux doc ⟨0, 0⟩ p 0

/-- `StringContext` of `contextUtil.ts`: tracked string state of a scan. -/
structure StringContext where
  inString : Bool
  activeStringDelimiter : Option Char
  embeddedCFML : Bool
deriving DecidableEq, Repr

/-- the string context every scan starts from. -/
def initialStringContext : StringContext := ⟨false, none, false⟩

/-- `isStringDelimiter` of `contextUtil.ts`. -/
def isStringDelimiter (c : Char) : Bool :=
  c = '\'' || c = '"'

/-- the fixed `embeddedCFMLDelimiter` constant `"#"`. -/
def embeddedCFMLDelimiter : Char := '#'

/-- one step of the in-string logic shared verbatim by the three scanners
(`getCommentRangesIterated`, `getNextCharacterPosition`, `getClosingPosition`):
`#` toggles `embeddedCFML`;  the active delimiter closes the string only while
`embeddedCFML` is off;  anything else is ignored.  Only applied while
`inString` is true. -/
def inStringStep (sc : StringContext) (c : Char) : StringContext :=
  if c = embeddedCFMLDelimiter then
    { sc with embeddedCFML := !sc.embeddedCFML }
  else if !sc.embeddedCFML && some c = sc.activeStringDelimiter then
    initialStringContext
  else
    sc

/-- the string context created when a string delimiter is consumed outside a
string (identical object literal in all three scanners). -/
def openString (c : Char) : StringContext := ⟨true, some c, false⟩

/-- the `characterPairs` table of `contextUtil.ts`. -/
def characterPairs : List (Char × Char) :=
  [('{', '}'), ('[', ']'), ('(', ')'), ('"', '"'), ('\'', '\''), ('#', '#'), ('<', '>')]

/-- `getCharacterPair`: the first pair either of whose members is `c`. -/
def getCharacterPair (c : Char) : Option (Char × Char) :=
  characterPairs.find? (fun p => p.1 = c || p.2 = c)

/-- `getOpeningChar`: the opening member of the pair of a closing character
(`none` models the `""` returned when no pair matches). -/
def getOpeningChar (closingChar : Char) : Option Char :=
  (getCharacterPair closingChar).map (fun p => p.1)

end CFML

namespace CFML

/-! ## `getNextCharacterPosition` (contextUtil.ts, lines 555-639)

The scanner walks forward over `documentStateContext.sanitizedDocumentText`
(modelled by the `doc` parameter) keeping a `StringContext` and an unclosed
count for each of the first three `characterPairs` (braces, brackets, parens).
-/

/-- the three `pairContext` counters (they are plain JS numbers and the
decrement is unguarded, so they can go negative). -/
structure PairCounts where
  braces : Int
  brackets : Int
  parens : Int
deriving DecidableEq, Repr

/-- all counters zero (`hasNoUnclosedPairs`). -/
def hasNoUnclosedPairs (k : PairCounts) : Bool :=
  k.braces = 0 && k.brackets = 0 && k.parens = 0

/-- starting counters. -/
def initialPairCounts : PairCounts := ⟨0, 0, 0⟩

/-- `openingPairs`: opening members of the three tracked pairs, minus any
character being searched for. -/
def openingPairs (searchChar : List Char) : List Char :=
  ['{', '[', '('].filter (fun c => decide (c ∉ searchChar))

/-- `closingPairs`: closing members of the three tracked pairs, minus any
character being searched for. -/
def closingPairs (searchChar : List Char) : List Char :=
  ['}', ']', ')'].filter (fun c => decide (c ∉ searchChar))

/-- `incrementUnclosedPair`: bump the counter whose pair opens with `c`. -/
def incrementUnclosedPair (k : PairCounts) (c : Char) : PairCounts :=
  if c = '{' then { k with braces := k.braces + 1 }
  else if c = '[' then { k with brackets := k.brackets + 1 }
  else if c = '(' then { k with parens := k.parens + 1 }
  else k

/-- `decrementUnclosedPair`: drop the counter whose pair closes with `c`. -/
def decrementUnclosedPair (k : PairCounts) (c : Char) : PairCounts :=
  if c = '}' then { k with braces := k.braces - 1 }
  else if c = ']' then { k with brackets := k.brackets - 1 }
  else if c = ')' then { k with parens := k.parens - 1 }
  else k

/-- scan state of `getNextCharacterPosition`. -/
structure NcpState where
  sc : StringContext
  counts : PairCounts
deriving DecidableEq, Repr

/-- the `for` loop of `getNextCharacterPosition`, one constructor case per
branch of its body; the fuel is `endOffset - startOffset`, so the loop runs
for exactly the offsets `startOffset ≤ offset < endOffset` and falls back to
`endOffset` afterwards (the function then returns `positionAt(endOffset)`). -/
def ncpLoop (doc searchChar : List Char) (includeChar : Bool) (endOffset : Nat) :
    Nat → Nat → NcpState → Nat
  | 0, _, _ => endOffset
  | fuel + 1, o, st =>
    let c := charAt doc o
    if st.sc.inString then
      ncpLoop doc searchChar includeChar endOffset fuel (o + 1) ⟨inStringStep st.sc c, st.counts⟩
    else if isStringDelimiter c then
      ncpLoop doc searchChar includeChar endOffset fuel (o + 1) ⟨openString c, st.counts⟩
    else if c ∈ openingPairs searchChar then
      ncpLoop doc searchChar includeChar endOffset fuel (o + 1) ⟨st.sc, incrementUnclosedPair st.counts c⟩
    else if c ∈ closingPairs searchChar then
      ncpLoop doc searchChar includeChar endOffset fuel (o + 1) ⟨st.sc, decrementUnclosedPair st.counts c⟩
    else if c ∈ searchChar ∧ hasNoUnclosedPairs st.counts then
      (if includeChar then o + 1 else o)
    else
      ncpLoop doc searchChar includeChar endOffset fuel (o + 1) st

/-- `getNextCharacterPosition`, offset-valued (the source wraps the resulting
offset in `document.positionAt`, see `getNextCharacterPosition`). -/
def getNextCharacterPositionOffset (doc : List Char) (startOffset endOffset : Nat)
    (searchChar : List Char) (includeChar : Bool) : Nat :=
  ncpLoop doc searchChar includeChar endOffset (endOffset - startOffset) startOffset
    ⟨initialStringContext, initialPairCounts⟩

/-- `getNextCharacterPosition` of `contextUtil.ts`. -/
def getNextCharacterPosition (doc : List Char) (startOffset endOffset : Nat)
    (searchChar : List Char) (includeChar : Bool) : Pos :=
  posAt doc (getNextCharacterPositionOffset doc startOffset endOffset searchChar includeChar)

/-- specification-side single step: how the scan state of
`getNextCharacterPosition` evolves on one character (the same branch chain as
`ncpLoop`, with no early return). -/
def ncpStateStep (searchChar : List Char) (c : Char) (st : NcpState) : NcpState :=
  if st.sc.inString then ⟨inStringStep st.sc c, st.counts⟩
  else if isStringDelimiter c then ⟨openString c, st.counts⟩
  else if c ∈ openingPairs searchChar then ⟨st.sc, incrementUnclosedPair st.counts c⟩
  else if c ∈ closingPairs searchChar then ⟨st.sc, decrementUnclosedPair st.counts c⟩
  else st

/-- specification side of claim C5: the first offset (within the fuelled
window) holding a search character while all three unclosed counters read zero
and the scanner is not inside a string. -/
def ncpFind (doc searchChar : List Char) : Nat → Nat → NcpState → Option Nat
  | 0, _, _ => none
  | fuel + 1, o, st =>
    let c := charAt doc o
    if c ∈ searchChar ∧ hasNoUnclosedPairs st.counts ∧ st.sc.inString = false then some o
    else ncpFind doc searchChar fuel (o + 1) (ncpStateStep searchChar c st)

theorem mem_openingPairs_not_search {searchChar : List Char} {c : Char}
    (h : c ∈ openingPairs searchChar) : c ∉ searchChar := by
  have := List.of_mem_filter h
  simpa using this

theorem mem_closingPairs_not_search {searchChar : List Char} {c : Char}
    (h : c ∈ closingPairs searchChar) : c ∉ searchChar := by
  have := List.of_mem_filter h
  simpa using this

theorem ncpLoop_eq_find (doc searchChar : List Char) (includeChar : Bool) (endOffset : Nat)
    (hq : ∀ c ∈ searchChar, isStringDelimiter c = false) :
    ∀ fuel o st, ncpLoop doc searchChar includeChar endOffset fuel o st =
      (match ncpFind doc searchChar fuel o st with
       | some j => if includeChar then j + 1 else j
       | none => endOffset) := by
  intro fuel
  induction fuel with
  | zero => intro o st; rfl
  | succ n ih =>
    intro o st
    rw [ncpLoop, ncpFind]
    by_cases h1 : st.sc.inString
    · have hP : ¬(charAt doc o ∈ searchChar ∧ hasNoUnclosedPairs st.counts ∧
          st.sc.inString = false) := by
        rintro ⟨-, -, hf⟩; rw [hf] at h1; exact Bool.false_ne_true h1
      simp only [h1, if_true, hP, if_false, if_neg hP]
      rw [ih]
      simp [ncpStateStep, h1]
    · by_cases h2 : isStringDelimiter (charAt doc o)
      · have hns : charAt doc o ∉ searchChar := fun hm => absurd (hq _ hm) (by simp [h2])
        simp only [h1, if_false, h2, if_true]
        rw [ih]
        simp only [ncpStateStep, h1, h2, hns, if_true, if_false, if_neg, ite_false, ite_true]
        simp [ncpStateStep, h1, h2, hns]
        exact ih _ _
      · by_cases h3 : charAt doc o ∈ openingPairs searchChar
        · have hns : charAt doc o ∉ searchChar := mem_openingPairs_not_search h3
          simp only [h1, h2, if_false, h3, if_true]
          rw [ih]
          simp [ncpStateStep, h1, h2, h3, hns]
          exact ih _ _
        · by_cases h4 : charAt doc o ∈ closingPairs searchChar
          · have hns : charAt doc o ∉ searchChar := mem_closingPairs_not_search h4
            simp only [h1, h2, h3, if_false, h4, if_true]
            rw [ih]
            simp [ncpStateStep, h1, h2, h3, h4, hns]
            exact ih _ _
          · by_cases h5 : charAt doc o ∈ searchChar ∧ hasNoUnclosedPairs st.counts
            · have hP : charAt doc o ∈ searchChar ∧ hasNoUnclosedPairs st.counts ∧
                  st.sc.inString = false :=
                ⟨h5.1, h5.2, by simpa using h1⟩
              simp [h1, h2, h3, h4, h5, hP]
            · simp only [h1, h2, h3, h4, h5, if_false]
              rw [ih]
              simp [ncpStateStep, h1, h2, h3, h4, h5]
              exact ih _ _

end CFML

namespace CFML

/-- Claim C5 (amended): for every document and offsets `s ≤ e`, provided no
target character is itself a string delimiter, `getNextCharacterPosition`
returns the position of the first occurrence of a target character at which
the brace, bracket, and paren unclosed counters are all zero and the scanner
is not inside a string; if no such occurrence exists before `e`, it returns
the position of `e`.  (As literally stated the claim fails when a target
character is a quote, see `C5_counterexample`.) -/
theorem C5_nextUnnested_first_target (doc : List Char) (s e : Nat) (searchChar : List Char)
    (includeChar : Bool) (hq : ∀ c ∈ searchChar, isStringDelimiter c = false) (_hse : s ≤ e) :
    getNextCharacterPosition doc s e searchChar includeChar =
      posAt doc
        (match ncpFind doc searchChar (e - s) s ⟨initialStringContext, initialPairCounts⟩ with
         | some j => if includeChar then j + 1 else j
         | none => e) := by
  unfold getNextCharacterPosition getNextCharacterPositionOffset
  rw [ncpLoop_eq_find doc searchChar includeChar e hq]

/-- Claim C5, counterexample to the claim as stated: searching for the target
`"` in `"a"b` over `[0, 4)`.  The first occurrence of the target sits at
offset 0, where no string is yet open and all counters are zero, so the claim
predicts position `(0,1)` (with `includeChar`); the code instead treats the
quote as a string opener and returns the end-offset position `(0,4)`. -/
theorem C5_counterexample :
    getNextCharacterPosition ['"', 'a', '"', 'b'] 0 4 ['"'] true ≠
      posAt ['"', 'a', '"', 'b']
        (match ncpFind ['"', 'a', '"', 'b'] ['"'] 4 0 ⟨initialStringContext, initialPairCounts⟩ with
         | some j => j + 1
         | none => 4) := by
  decide

/-- spec example for C5: target `,` inside `f(a, b(c, d), e)` scanning just
after `f(` returns the comma before `b(c, d)` (offset 3), skipping nothing
before it and in particular not the comma nested inside the inner parens. -/
theorem C5_witness :
    (∀ c ∈ ([','] : List Char), isStringDelimiter c = false) ∧
    getNextCharacterPosition
      ['f', '(', 'a', ',', ' ', 'b', '(', 'c', ',', ' ', 'd', ')', ',', ' ', 'e', ')']
      2 16 [','] false = ⟨0, 3⟩ := by
  refine ⟨by decide, ?_⟩
  rw [C5_nextUnnested_first_target
    ['f', '(', 'a', ',', ' ', 'b', '(', 'c', ',', ' ', 'd', ')', ',', ' ', 'e', ')']
    2 16 [','] false (by decide) (by decide)]
  decide

/-! ## `getClosingPosition` (contextUtil.ts, lines 647-690) -/

/-- scan state of `getClosingPosition`: the single `unclosedPairs` counter is
only ever decremented under a non-zero guard, so it stays a natural number. -/
structure CzState where
  sc : StringContext
  unclosed : Nat
deriving DecidableEq, Repr

/-- the `for` loop of `getClosingPosition`; fuel is `documentText.length -
initialOffset` and falling off the end returns `initialOffset` itself. -/
def czLoop (doc : List Char) (closingChar : Char) (initialOffset : Nat) :
    Nat → Nat → CzState → Nat
  | 0, _, _ => initialOffset
  | fuel + 1, o, st =>
    let c := charAt doc o
    if st.sc.inString then
      czLoop doc closingChar initialOffset fuel (o + 1) ⟨inStringStep st.sc c, st.unclosed⟩
    else if isStringDelimiter c then
      czLoop doc closingChar initialOffset fuel (o + 1) ⟨openString c, st.unclosed⟩
    else if some c = getOpeningChar closingChar then
      czLoop doc closingChar initialOffset fuel (o + 1) ⟨st.sc, st.unclosed + 1⟩
    else if c = closingChar then
      if st.unclosed ≠ 0 then
        czLoop doc closingChar initialOffset fuel (o + 1) ⟨st.sc, st.unclosed - 1⟩
      else o + 1
    else
      czLoop doc closingChar initialOffset fuel (o + 1) st

/-- `getClosingPosition`, offset-valued (the source wraps the result in
`document.positionAt`, see `getClosingPosition`). -/
def getClosingPositionOffset (doc : List Char) (initialOffset : Nat) (closingChar : Char) : Nat :=
  czLoop doc closingChar initialOffset (doc.length - initialOffset) initialOffset
    ⟨initialStringContext, 0⟩

/-- `getClosingPosition` of `contextUtil.ts`. -/
def getClosingPosition (doc : List Char) (initialOffset : Nat) (closingChar : Char) : Pos :=
  posAt doc (getClosingPositionOffset doc initialOffset closingChar)

/-- specification-side single step of the `getClosingPosition` scan. -/
def czStateStep (closingChar : Char) (c : Char) (st : CzState) : CzState :=
  if st.sc.inString then ⟨inStringStep st.sc c, st.unclosed⟩
  else if isStringDelimiter c then ⟨openString c, st.unclosed⟩
  else if some c = getOpeningChar closingChar then ⟨st.sc, st.unclosed + 1⟩
  else if c = closingChar then
    (if st.unclosed ≠ 0 then ⟨st.sc, st.unclosed - 1⟩ else st)
  else st

/-- specification side of claim C6: the first offset (within the fuelled
window) holding the closing character while the unclosed counter reads zero
and the scanner is not inside a string — the accepted matching close. -/
def czFind (doc : List Char) (closingChar : Char) : Nat → Nat → CzState → Option Nat
  | 0, _, _ => none
  | fuel + 1, o, st =>
    let c := charAt doc o
    if c = closingChar ∧ st.unclosed = 0 ∧ st.sc.inString = false then some o
    else czFind doc closingChar fuel (o + 1) (czStateStep closingChar c st)

theorem delimiter_pair_self {c : Char} (h : isStringDelimiter c = true) :
    getOpeningChar c = some c := by
  have : c = '\'' ∨ c = '"' := by
    simpa [isStringDelimiter] using h
  rcases this with h | h <;> subst h <;> decide

theorem czLoop_eq_find (doc : List Char) (closingChar : Char) (initialOffset : Nat)
    (hpair : getOpeningChar closingChar ≠ some closingChar) :
    ∀ fuel o st, czLoop doc closingChar initialOffset fuel o st =
      (match czFind doc closingChar fuel o st with
       | some j => j + 1
       | none => initialOffset) := by
  intro fuel
  induction fuel with
  | zero => intro o st; rfl
  | succ n ih =>
    intro o st
    rw [czLoop, czFind]
    by_cases h1 : st.sc.inString
    · simp only [h1, if_true]
      rw [ih]
      simp [czStateStep, h1]
    · by_cases h2 : isStringDelimiter (charAt doc o)
      · have hne : charAt doc o ≠ closingChar := by
          intro hc; exact hpair (by rw [← hc]; exact delimiter_pair_self h2)
        simp only [h1, if_false, h2, if_true]
        rw [ih]
        simp [czStateStep, h1, h2, hne]
        exact ih _ _
      · by_cases h3 : some (charAt doc o) = getOpeningChar closingChar
        · have hne : charAt doc o ≠ closingChar := by
            intro hc; rw [hc] at h3; exact hpair h3.symm
          simp only [h1, h2, if_false, h3, if_true]
          rw [ih]
          simp [czStateStep, h1, h2, h3, hne]
          exact ih _ _
        · by_cases h4 : charAt doc o = closingChar
          · by_cases h5 : st.unclosed ≠ 0
            · have h2x : isStringDelimiter closingChar = false := by
                rw [← h4]; simpa using h2
              have h3x : ¬ some closingChar = getOpeningChar closingChar := fun hh =>
                hpair hh.symm
              simp only [h1, h2, h3, if_false, h4, if_true, h5]
              rw [ih]
              simp [czStateStep, h1, h2, h3, h4, h5, h2x, h3x]
              exact ih _ _
            · have hz : st.unclosed = 0 := by omega
              have h2x : isStringDelimiter closingChar = false := by
                rw [← h4]; simpa using h2
              have h3x : ¬ some closingChar = getOpeningChar closingChar := fun hh =>
                hpair hh.symm
              have hP : charAt doc o = closingChar ∧ st.unclosed = 0 ∧
                  st.sc.inString = false := ⟨h4, hz, by simpa using h1⟩
              simp [h1, h2, h3, h4, h5, hP, h2x, h3x]
          · simp only [h1, h2, h3, h4, if_false]
            rw [ih]
            simp [czStateStep, h1, h2, h3, h4]
            exact ih _ _

end CFML

namespace CFML

/-- Claim C6: starting just after an already-consumed opening character,
`getClosingPosition` returns the position immediately after the matching close
of that single pair kind — the first occurrence of the closing character seen
with the unclosed counter at zero (nested reoccurrences of the distinct
opening character increment it) and no string open — and if no close is
accepted before the end of the document it returns the position of the
initial offset, unchanged. -/
theorem C6_closingPairPosition (doc : List Char) (initialOffset : Nat) (closingChar : Char)
    (hpair : getOpeningChar closingChar ≠ some closingChar) :
    getClosingPosition doc initialOffset closingChar =
      posAt doc
        (match czFind doc closingChar (doc.length - initialOffset) initialOffset
            ⟨initialStringContext, 0⟩ with
         | some j => j + 1
         | none => initialOffset) := by
  unfold getClosingPosition getClosingPositionOffset
  rw [czLoop_eq_find doc closingChar initialOffset hpair]

/-- spec example for C6: `{a: {b: 1}, c: 2}` scanned from just after the first
`{` with closing character `}` yields the position right after the final,
outer `}` (offset 17), not the inner one. -/
theorem C6_witness :
    getOpeningChar '}' ≠ some '}' ∧
    getClosingPosition
      ['{', 'a', ':', ' ', '{', 'b', ':', ' ', '1', '}', ',', ' ', 'c', ':', ' ', '2', '}']
      1 '}' = ⟨0, 17⟩ := by
  refine ⟨by decide, ?_⟩
  rw [C6_closingPairPosition
    ['{', 'a', ':', ' ', '{', 'b', ':', ' ', '1', '}', ',', ' ', 'c', ':', ' ', '2', '}']
    1 '}' (by decide)]
  decide

end CFML

namespace CFML

/-! ## Comment extraction (contextUtil.ts, lines 175-393) -/

/-- `matchesFront pat l`: `pat` is an initial run of `l` (helper for the
suffix tests below). -/
def matchesFront : List Char → List Char → Bool
  | [], _ => true
  | _ :: _, [] => false
  | p :: ps, c :: cs => p = c && matchesFront ps cs

/-- `lineText.endsWith(pat)`: the accumulated line text is kept in reverse
order (most recent character first), so a suffix test on the line is a front
match against the reversed pattern. -/
def listEndsWith (lineRev pat : List Char) : Bool :=
  matchesFront pat.reverse lineRev

/-- `CommentType` (features/comment.ts). -/
inductive CommentType
  | Line
  | Block
deriving DecidableEq, Repr

/-- the value stored in `commentContext.activeComment`: either a bare
delimiter string (`cfmlCommentRules.scriptLineComment`) or an open/close
delimiter pair.  JS indexes both with `[1]`, see `commentCloseAt1`. -/
inductive CommentDelim
  | str (s : List Char)
  | pair (op cl : List Char)
deriving DecidableEq, Repr

/-- `activeComment[1]` as used in the block-comment close test: on a pair it
is the closing delimiter; on a bare string it is the string's second
character (a one-character string) — JS string indexing. -/
def commentCloseAt1 : CommentDelim → List Char
  | .str s => (s.drop 1).take 1
  | .pair _ cl => cl

/-- Modelled from the spec: `cfmlCommentRules.scriptLineComment` of
`features/comment.ts` (not under src/): the script line-comment opener
`//`. -/
def scriptLineComment : List Char := ['/', '/']

/-- Modelled from the spec: `cfmlCommentRules.scriptBlockComment` of
`features/comment.ts` (not under src/): the script block-comment delimiter
pair, whose openers/closers also appear literally in the in-src regex
`cfscriptBlockCommentPattern`. -/
def scriptBlockComment : List Char × List Char := (['/', '*'], ['*', '/'])

/-- Modelled from the spec: `cfmlCommentRules.tagBlockComment` of
`features/comment.ts` (not under src/): the tag block-comment delimiter pair,
matching the in-src regex `tagBlockCommentPattern` (`<!--` ... `-->`). -/
def tagBlockComment : List Char × List Char := (['<', '!', '-', '-'], ['-', '-', '>'])

/-- `CommentContext` (features/comment.ts shape as used by the scanner). -/
structure CommentContext where
  inComment : Bool
  activeComment : Option CommentDelim
  commentType : Option CommentType
  start : Option Pos
deriving DecidableEq, Repr

/-- the cleared comment context. -/
def noComment : CommentContext := ⟨false, none, none, none⟩

/-- `Position.translate(lineDelta, charDelta)` (clamped at zero as a total
model; the single use site `translate(0, 1 - openerLength)` only runs with
`character ≥ openerLength - 1` because the opener was matched on the current
line). -/
def Pos.translate (p : Pos) (dl dc : Int) : Pos :=
  ⟨(p.line + dl).toNat, (p.char + dc).toNat⟩

/-- full state of one `getCommentRangesIterated` scan. -/
structure CommentScanState where
  commentContext : CommentContext
  stringContext : StringContext
  lineRev : List Char
  prevPos : Option Pos
  ranges : List Rng
deriving DecidableEq, Repr

/-- the state the scan starts from (`previousPosition` is `undefined`). -/
def initialCommentScanState : CommentScanState :=
  ⟨noComment, initialStringContext, [], none, []⟩

/-- one iteration of the `getCommentRangesIterated` loop at offset `o`,
transcribed branch for branch.  Note two faithful oddities of the source:
the script block-comment branch stores `cfmlCommentRules.scriptLineComment`
(not the block pair) in `activeComment`, so the block close test becomes
`lineText.endsWith("/")`;  and the line-comment close test reads
`previousPosition` unguarded (it is always set by then, since any comment
opener needs at least two characters of the line). -/
def commentScanStep (doc : List Char) (isScript : Bool) (o : Nat)
    (st : CommentScanState) : CommentScanState :=
  let position := posAt doc o
  let c := charAt doc o
  let lineChanged : Bool :=
    match st.prevPos with
    | some p => position.line ≠ p.line
    | none => false
  let lineRev := c :: (if lineChanged then [] else st.lineRev)
  let st := { st with lineRev := lineRev }
  let st :=
  if st.commentContext.inComment then
    if st.commentContext.commentType = some CommentType.Line ∧ lineChanged then
      { st with
        ranges := st.ranges ++
          [⟨st.commentContext.start.getD ⟨0, 0⟩, (st.prevPos.getD ⟨0, 0⟩)⟩],
        commentContext := noComment }
    else if st.commentContext.commentType = some CommentType.Block ∧
        listEndsWith lineRev (commentCloseAt1 (st.commentContext.activeComment.getD (.str []))) then
      { st with
        ranges := st.ranges ++
          [⟨st.commentContext.start.getD ⟨0, 0⟩, posAt doc (o + 1)⟩],
        commentContext := noComment }
    else st
  else if st.stringContext.inString then
    { st with stringContext := inStringStep st.stringContext c }
  else if isScript then
    if isStringDelimiter c then
      { st with stringContext := openString c }
    else if listEndsWith lineRev scriptLineComment then
      { st with commentContext :=
          ⟨true, some (.str scriptLineComment), some CommentType.Line, st.prevPos⟩ }
    else if listEndsWith lineRev scriptBlockComment.1 then
      { st with commentContext :=
          ⟨true, some (.str scriptLineComment), some CommentType.Block, st.prevPos⟩ }
    else st
  else if listEndsWith lineRev tagBlockComment.1 then
    { st with commentContext :=
        ⟨true, some (.pair tagBlockComment.1 tagBlockComment.2), some CommentType.Block,
          some (position.translate 0 (1 - (tagBlockComment.1.length : Int)))⟩ }
  else st
  { st with prevPos := some position }

/-- the whole scanning loop: fuel counts the offsets still to visit. -/
def commentScanAux (doc : List Char) (isScript : Bool) :
    Nat → Nat → CommentScanState → CommentScanState
  | 0, _, st => st
  | fuel + 1, o, st =>
    commentScanAux doc isScript fuel (o + 1) (commentScanStep doc isScript o st)

/-- a single forward pass of `getCommentRangesIterated` over the window
`[s, e)` (no embedded-region post-processing). -/
def commentScanPass (doc : List Char) (isScript : Bool) (s e : Nat) : List Rng :=
  (commentScanAux doc isScript (e - s) s initialCommentScanState).ranges

/-- `isInRanges` restricted to a `Range` argument (its use sites here). -/
def isInRanges (ranges : List Rng) (r : Rng) : Bool :=
  ranges.any (fun rr => rr.containsRng r)

/-- `getCommentRangesIterated`.  `cfScriptRanges` stands for the result of
`getCfScriptRanges` (whose tag-pattern matcher lives outside src/); the
source computes it only in tag mode, then deletes tag comments that sit fully
inside a cfscript region and appends a script-mode rescan of each region not
already inside a comment. -/
def getCommentRangesIterated (doc : List Char) (isScript : Bool)
    (cfScriptRanges : List Rng) (docRange : Option Rng) : List Rng :=
  let s := match docRange with | some r => offsetAt doc r.start | none => 0
  let e := match docRange with | some r => offsetAt doc r.stop | none => doc.length
  let cfs := if isScript then [] else cfScriptRanges
  let base := commentScanPass doc isScript s e
  if cfs.length > 0 then
    let filtered := base.filter (fun r => !(isInRanges cfs r))
    cfs.foldl
      (fun acc r =>
        if !(isInRanges acc r) then
          acc ++ commentScanPass doc true (offsetAt doc r.start) (offsetAt doc r.stop)
        else acc)
      filtered
  else base

/-- first index at or past `i` where `pat` occurs in `l` (regex search start
for the fast mode; the fuel is always large enough to reach the list end). -/
def findPatFrom (l pat : List Char) : Nat → Nat → Option Nat
  | 0, _ => none
  | fuel + 1, i =>
    if matchesFront pat (l.drop i) then some i
    else findPatFrom l pat fuel (i + 1)

/-- first index at or past `j` that holds `\r` or `\n`, or the list length
(the extent of the regex `[^\r\n]*`). -/
def lineEndFrom (l : List Char) : Nat → Nat → Nat
  | 0, j => j
  | fuel + 1, j =>
    if j < l.length then
      (if charAt l j = '\r' ∨ charAt l j = '\n' then j else lineEndFrom l fuel (j + 1))
    else j

/-- all matches of the lazy block regex `open [\s\S]*? close` with `g`-flag
`lastIndex` semantics: from the scan index, the next `open`, then the
nearest following `close`; the match ends right after `close` and scanning
resumes there. -/
def blockMatches (l op cl : List Char) : Nat → Nat → List (Nat × Nat)
  | 0, _ => []
  | fuel + 1, i =>
    match findPatFrom l op (l.length + 1) i with
    | none => []
    | some a =>
      match findPatFrom l cl (l.length + 1) (a + op.length) with
      | none => []
      | some b => (a, b + cl.length) :: blockMatches l op cl fuel (b + cl.length)

/-- all matches of `cfscriptLineCommentPattern` (`//[^\r\n]*`, `g`-flag). -/
def lineMatches (l : List Char) : Nat → Nat → List (Nat × Nat)
  | 0, _ => []
  | fuel + 1, i =>
    match findPatFrom l ['/', '/'] (l.length + 1) i with
    | none => []
    | some a =>
      let e := lineEndFrom l (l.length + 1) (a + 2)
      (a, e) :: lineMatches l fuel e

/-- the script branch of `getCommentRangesByRegex` on the window `[s, e)`:
block-comment sweep first, then line-comment sweep, indices shifted by the
window start (`textOffset`). -/
def scriptRegexRanges (doc : List Char) (s e : Nat) : List Rng :=
  let win := (doc.take e).drop s
  ((blockMatches win scriptBlockComment.1 scriptBlockComment.2 (win.length + 1) 0).map
    (fun ab => (⟨posAt doc (s + ab.1), posAt doc (s + ab.2)⟩ : Rng)))
  ++ ((lineMatches win (win.length + 1) 0).map
    (fun ab => (⟨posAt doc (s + ab.1), posAt doc (s + ab.2)⟩ : Rng)))

/-- the tag branch sweep of `getCommentRangesByRegex` (`tagBlockCommentPattern`). -/
def tagRegexRanges (doc : List Char) (s e : Nat) : List Rng :=
  let win := (doc.take e).drop s
  (blockMatches win tagBlockComment.1 tagBlockComment.2 (win.length + 1) 0).map
    (fun ab => (⟨posAt doc (s + ab.1), posAt doc (s + ab.2)⟩ : Rng))

/-- `getCommentRangesByRegex`; in tag mode the sweep is followed by
script-mode regex sweeps of every embedded cfscript region. -/
def getCommentRangesByRegex (doc : List Char) (isScript : Bool)
    (cfScriptRanges : List Rng) (docRange : Option Rng) : List Rng :=
  let s := match docRange with | some r => offsetAt doc r.start | none => 0
  let e := match docRange with | some r => offsetAt doc r.stop | none => doc.length
  if isScript then scriptRegexRanges doc s e
  else
    tagRegexRanges doc s e ++
      cfScriptRanges.foldl
        (fun acc r => acc ++ scriptRegexRanges doc (offsetAt doc r.start) (offsetAt doc r.stop))
        []

/-- `getCommentRanges`: fast mode selects the regex sweeps, accurate mode the
iterated scan. -/
def getCommentRanges (doc : List Char) (isScript : Bool) (cfScriptRanges : List Rng)
    (docRange : Option Rng) (fast : Bool) : List Rng :=
  if fast then getCommentRangesByRegex doc isScript cfScriptRanges docRange
  else getCommentRangesIterated doc isScript cfScriptRanges docRange

end CFML

namespace CFML

/-- Claim C2 (code bug, script block comments): scanning the script document
`/* a/b */` in accurate mode.  The block comment is entered at offset 1, but
the scanner stored `cfmlCommentRules.scriptLineComment` (`//`) as the active
comment, so the close test is `lineText.endsWith("/")` — the returned range
ends at `(0,5)`, immediately after the `/` of `a/b`, instead of immediately
after the exact closing delimiter `*/` (which would give `(0,9)`). -/
theorem C2_block_close_not_exact_delimiter :
    getCommentRangesIterated ['/', '*', ' ', 'a', '/', 'b', ' ', '*', '/'] true [] none =
      [⟨⟨0, 0⟩, ⟨0, 5⟩⟩] ∧
    (⟨⟨0, 0⟩, ⟨0, 5⟩⟩ : Rng) ≠ ⟨⟨0, 0⟩, ⟨0, 9⟩⟩ := by
  constructor
  · rfl
  · decide

/-- Claim C3 (code bug): on the well-formed script block comment `/* a/b */`,
which sits inside no string, fast (regex) mode returns the full comment
`(0,0)-(0,9)` while accurate (iterated) mode stops at `(0,0)-(0,5)` — the two
modes disagree.  The second half of the claim does hold at a concrete input:
for `x="/*y*/"` the comment-open lies inside a string, accurate mode omits it
and fast mode reports it. -/
theorem C3_fast_accurate_disagree_on_wellformed_block :
    getCommentRanges ['/', '*', ' ', 'a', '/', 'b', ' ', '*', '/'] true [] none true =
      [⟨⟨0, 0⟩, ⟨0, 9⟩⟩] ∧
    getCommentRanges ['/', '*', ' ', 'a', '/', 'b', ' ', '*', '/'] true [] none false =
      [⟨⟨0, 0⟩, ⟨0, 5⟩⟩] ∧
    getCommentRanges ['x', '=', '"', '/', '*', 'y', '*', '/', '"'] true [] none false = [] ∧
    getCommentRanges ['x', '=', '"', '/', '*', 'y', '*', '/', '"'] true [] none true =
      [⟨⟨0, 3⟩, ⟨0, 8⟩⟩] := by
  refine ⟨rfl, rfl, rfl, rfl⟩

/-- ranges listed in document order: starts and stops both non-decreasing. -/
def sortedByDocumentOrder (rs : List Rng) : Prop :=
  rs.Pairwise (fun a b =>
    a.start.isBeforeOrEqual b.start = true ∧ a.stop.isBeforeOrEqual b.stop = true)

/-- no two listed ranges overlap (half-open ranges: one ends at or before the
other starts). -/
def nonOverlapping (rs : List Rng) : Prop :=
  rs.Pairwise (fun a b =>
    a.stop.isBeforeOrEqual b.start = true ∨ b.stop.isBeforeOrEqual a.start = true)

instance (rs : List Rng) : Decidable (sortedByDocumentOrder rs) := by
  unfold sortedByDocumentOrder; infer_instance

instance (rs : List Rng) : Decidable (nonOverlapping rs) := by
  unfold nonOverlapping; infer_instance

/-- Claim C4, counterexample to the claim as stated: in fast mode over the
script document `// /* */`, the block-comment sweep runs before the
line-comment sweep, so the result lists `(0,3)-(0,8)` before `(0,0)-(0,8)` —
out of document order, and the two ranges overlap. -/
theorem C4_counterexample :
    ¬ sortedByDocumentOrder
        (getCommentRanges ['/', '/', ' ', '/', '*', ' ', '*', '/'] true [] none true) ∧
    ¬ nonOverlapping
        (getCommentRanges ['/', '/', ' ', '/', '*', ' ', '*', '/'] true [] none true) := by
  constructor
  · decide
  · decide

end CFML

namespace CFML

/-- the StringContext invariant of claim C9: the embedded-expression flag can
only be on while a string is open. -/
def stringStateInvariant (sc : StringContext) : Prop :=
  sc.embeddedCFML = true → sc.inString = true

/-- Claim C9: at every step of the three forward scans (the accurate comment
scan, `getNextCharacterPosition`, `getClosingPosition`) `embeddedCFML` is true
only while `inString` is true: the initial context satisfies the invariant,
every string-open transition and every in-string step made from an open
string preserves it, and so does the full per-character step of each scanner.
Moreover the fixed `#` delimiter seen inside a string toggles `embeddedCFML`
without closing the string, and the string closes on its active delimiter
only while `embeddedCFML` is false. -/
theorem C9_embedded_expression_invariant :
    stringStateInvariant initialStringContext ∧
    (∀ c, stringStateInvariant (openString c)) ∧
    (∀ sc c, sc.inString = true → stringStateInvariant (inStringStep sc c)) ∧
    (∀ doc isScript o st, stringStateInvariant st.stringContext →
      stringStateInvariant (commentScanStep doc isScript o st).stringContext) ∧
    (∀ searchChar c st, stringStateInvariant st.sc →
      stringStateInvariant (ncpStateStep searchChar c st).sc) ∧
    (∀ closingChar c st, stringStateInvariant st.sc →
      stringStateInvariant (czStateStep closingChar c st).sc) ∧
    (∀ sc, sc.inString = true →
      (inStringStep sc embeddedCFMLDelimiter).inString = true ∧
      (inStringStep sc embeddedCFMLDelimiter).embeddedCFML = !sc.embeddedCFML) ∧
    (∀ sc c, sc.inString = true → (inStringStep sc c).inString = false →
      sc.embeddedCFML = false ∧ some c = sc.activeStringDelimiter ∧
      c ≠ embeddedCFMLDelimiter) := by
  have hopen : ∀ c, stringStateInvariant (openString c) := by
    intro c _; rfl
  have hstep : ∀ sc c, sc.inString = true → stringStateInvariant (inStringStep sc c) := by
    intro sc c hin
    unfold inStringStep
    split_ifs with h1 h2
    · intro _; exact hin
    · intro h; simp [initialStringContext] at h
    · intro _; exact hin
  refine ⟨fun h => by simp [initialStringContext] at h, hopen, hstep, ?_, ?_, ?_, ?_, ?_⟩
  · intro doc isScript o st h
    unfold commentScanStep
    dsimp only
    split_ifs <;>
      first
        | exact h
        | exact hstep _ _ (by assumption)
        | exact fun _ => rfl
  · intro searchChar c st h
    unfold ncpStateStep
    split_ifs <;>
      first
        | exact h
        | exact hstep _ _ (by assumption)
        | exact fun _ => rfl
  · intro closingChar c st h
    unfold czStateStep
    split_ifs <;>
      first
        | exact h
        | exact hstep _ _ (by assumption)
        | exact fun _ => rfl
  · intro sc hin
    unfold inStringStep
    simp [embeddedCFMLDelimiter, hin]
  · intro sc c hin hclose
    unfold inStringStep at hclose
    split_ifs at hclose with h1 h2
    · rw [hclose] at hin; simp at hin
    · rcases Bool.and_eq_true _ _ |>.mp h2 with ⟨hnot, heq⟩
      refine ⟨by simpa using hnot, by simpa using heq, h1⟩
    · rw [hclose] at hin; simp at hin

/-- concrete instances of C9: an ordinary character keeps the invariant, and
`#` inside a string with the flag on keeps the string open. -/
theorem C9_witness :
    stringStateInvariant (inStringStep ⟨true, some '"', false⟩ 'x') ∧
    (inStringStep ⟨true, some '"', true⟩ embeddedCFMLDelimiter).inString = true := by
  obtain ⟨-, -, hstep, -, -, -, htoggle, -⟩ := C9_embedded_expression_invariant
  exact ⟨hstep ⟨true, some '"', false⟩ 'x' rfl, (htoggle ⟨true, some '"', true⟩ rfl).1⟩

end CFML

namespace CFML

/-! ## `invertRanges` (contextUtil.ts, lines 474-498) -/

/-- `invertRanges`: walks the given ranges keeping `previousEndPosition`
(initially `(0,0)`); a range starting exactly at `previousEndPosition` only
advances it, any other range causes `(previousEndPosition, range.start)` to be
pushed — and, faithfully to the source, `previousEndPosition` is *not*
advanced in that branch; finally the tail up to the document end position is
appended when `previousEndPosition` differs from it. -/
def invertRanges (doc : List Char) (ranges : List Rng) : List Rng :=
  let documentEndPosition := posAt doc doc.length
  let walked := ranges.foldl
    (fun (acc : Pos × List Rng) r =>
      if acc.1 = r.start then (r.stop, acc.2)
      else (acc.1, acc.2 ++ [⟨acc.1, r.start⟩]))
    ((⟨0, 0⟩ : Pos), ([] : List Rng))
  if walked.1 ≠ documentEndPosition then walked.2 ++ [⟨walked.1, documentEndPosition⟩]
  else walked.2

/-- Claim C8 (code bug): on the ten-character one-line document
`abcdefghij` with the sorted, non-overlapping ranges `(0,2)-(0,4)` and
`(0,6)-(0,8)`, `invertRanges` returns `(0,0)-(0,2)`, `(0,0)-(0,6)`,
`(0,0)-(0,10)` — because `previousEndPosition` is never advanced after a
push, every later output restarts at `(0,0)`.  The output is not the
complement `(0,0)-(0,2)`, `(0,4)-(0,6)`, `(0,8)-(0,10)`, and it overlaps the
input ranges instead of being disjoint from them. -/
theorem C8_invertRanges_not_complement :
    invertRanges ['a', 'b', 'c', 'd', 'e', 'f', 'g', 'h', 'i', 'j']
        [⟨⟨0, 2⟩, ⟨0, 4⟩⟩, ⟨⟨0, 6⟩, ⟨0, 8⟩⟩] =
      [⟨⟨0, 0⟩, ⟨0, 2⟩⟩, ⟨⟨0, 0⟩, ⟨0, 6⟩⟩, ⟨⟨0, 0⟩, ⟨0, 10⟩⟩] ∧
    invertRanges ['a', 'b', 'c', 'd', 'e', 'f', 'g', 'h', 'i', 'j']
        [⟨⟨0, 2⟩, ⟨0, 4⟩⟩, ⟨⟨0, 6⟩, ⟨0, 8⟩⟩] ≠
      [⟨⟨0, 0⟩, ⟨0, 2⟩⟩, ⟨⟨0, 4⟩, ⟨0, 6⟩⟩, ⟨⟨0, 8⟩, ⟨0, 10⟩⟩] ∧
    ¬ nonOverlapping
        ([⟨⟨0, 2⟩, ⟨0, 4⟩⟩, ⟨⟨0, 6⟩, ⟨0, 8⟩⟩] ++
          invertRanges ['a', 'b', 'c', 'd', 'e', 'f', 'g', 'h', 'i', 'j']
            [⟨⟨0, 2⟩, ⟨0, 4⟩⟩, ⟨⟨0, 6⟩, ⟨0, 8⟩⟩]) := by
  refine ⟨rfl, by decide, by decide⟩

/-! ## `componentPathToUri` (component.ts, lines 319-344) -/

/-- `COMPONENT_EXT` of component.ts. -/
def COMPONENT_EXT : String := ".cfc"

/-- the external collaborators of the resolver: the cache
(`cachedEntities.componentPathToUri`), the file-system existence check
(`fs.existsSync`), `path.dirname` and `workspace.getWorkspaceFolder` (which
returns `undefined` when the URI is in no workspace folder). -/
structure ResolveEnv where
  cache : String → String → Option String
  fsExists : String → Bool
  dirname : String → String
  workspaceFolder : String → Option String

/-- `dotPath.replace(/\./g, path.sep) + COMPONENT_EXT` with the path
separator modelled as `/`. -/
def dotPathToRelPath (dotPath : String) : String :=
  String.mk (dotPath.toList.map (fun c => if c = '.' then '/' else c)) ++ COMPONENT_EXT

/-- `path.join` on an already-relative tail. -/
def pathJoin (a b : String) : String := a ++ "/" ++ b

/-- `componentPathToUri`: cache first; then the candidate relative to the
referencing file's directory; then the candidate relative to the workspace
folder root.  `Except.error ()` models the uncaught `TypeError` thrown by
`root.uri` when `workspace.getWorkspaceFolder` returned `undefined`. -/
def componentPathToUri (env : ResolveEnv) (dotPath baseUri : String) :
    Except Unit (Option String) :=
  match env.cache dotPath baseUri with
  | some cached => .ok (some cached)
  | none =>
    let normalizedPath := dotPathToRelPath dotPath
    let localPath := pathJoin (env.dirname baseUri) normalizedPath
    if env.fsExists localPath then .ok (some localPath)
    else
      match env.workspaceFolder baseUri with
      | none => .error ()
      | some root =>
        let rootPath := pathJoin root normalizedPath
        if env.fsExists rootPath then .ok (some rootPath)
        else .ok none

/-- Claim C7 (amended): after a cache miss the resolver probes the
converted relative path first against the referencing file's directory, then
against the workspace folder root, returning the first existing candidate and
otherwise not-found — but the outcome is non-fatal only when a workspace
folder exists (or an earlier probe already succeeded); with a cache miss, a
failed local probe and no workspace folder, the lookup throws
(`Except.error`). -/
theorem C7_resolution_order (env : ResolveEnv) (dotPath baseUri : String) :
    (∀ hit, env.cache dotPath baseUri = some hit →
      componentPathToUri env dotPath baseUri = .ok (some hit)) ∧
    (env.cache dotPath baseUri = none →
      env.fsExists (pathJoin (env.dirname baseUri) (dotPathToRelPath dotPath)) = true →
      componentPathToUri env dotPath baseUri =
        .ok (some (pathJoin (env.dirname baseUri) (dotPathToRelPath dotPath)))) ∧
    (∀ root, env.cache dotPath baseUri = none →
      env.fsExists (pathJoin (env.dirname baseUri) (dotPathToRelPath dotPath)) = false →
      env.workspaceFolder baseUri = some root →
      componentPathToUri env dotPath baseUri =
        (if env.fsExists (pathJoin root (dotPathToRelPath dotPath)) then
          .ok (some (pathJoin root (dotPathToRelPath dotPath)))
        else .ok none)) ∧
    (componentPathToUri env dotPath baseUri = .error () ↔
      (env.cache dotPath baseUri = none ∧
       env.fsExists (pathJoin (env.dirname baseUri) (dotPathToRelPath dotPath)) = false ∧
       env.workspaceFolder baseUri = none)) := by
  refine ⟨?_, ?_, ?_, ?_, ?_⟩
  · intro hit hcc
    simp [componentPathToUri, hcc]
  · intro hcc hl
    simp [componentPathToUri, hcc, hl]
  · intro root hcc hl hw
    simp [componentPathToUri, hcc, hl, hw]
  · intro herr
    rcases hc : env.cache dotPath baseUri with - | hit
    · cases hl : env.fsExists (pathJoin (env.dirname baseUri) (dotPathToRelPath dotPath)) with
      | true => exact absurd herr (by simp [componentPathToUri, hc, hl])
      | false =>
        rcases hw : env.workspaceFolder baseUri with - | root
        · exact ⟨rfl, rfl, rfl⟩
        · exfalso
          cases hr : env.fsExists (pathJoin root (dotPathToRelPath dotPath)) <;>
            simp [componentPathToUri, hc, hl, hw, hr] at herr
    · exact absurd herr (by simp [componentPathToUri, hc])
  · rintro ⟨hc, hl, hw⟩
    simp [componentPathToUri, hc, hl, hw]

/-- Claim C7, counterexample to the claim as stated: with an empty cache, a
file system on which nothing exists, and a referencing file that belongs to
no workspace folder, the resolver does not return not-found — it throws. -/
theorem C7_counterexample :
    componentPathToUri ⟨fun _ _ => none, fun _ => false, fun _ => "", fun _ => none⟩
      "utils.Helper" "/proj/A.cfc" = .error () ∧
    (Except.error () : Except Unit (Option String)) ≠ .ok none := by
  exact ⟨rfl, fun h => by cases h⟩

/-- the spec's resolver scenario through `C7_resolution_order`: `utils.Helper`
is absent next to the referencing file but present under the workspace root,
so the second probe wins. -/
theorem C7_witness :
    componentPathToUri
      ⟨fun _ _ => none, fun p => p == "/root/utils/Helper.cfc", fun _ => "/proj/sub",
        fun _ => some "/root"⟩
      "utils.Helper" "/proj/sub/A.cfc" = .ok (some "/root/utils/Helper.cfc") := by
  obtain ⟨-, -, hroot, -⟩ := C7_resolution_order
    ⟨fun _ _ => none, fun p => p == "/root/utils/Helper.cfc", fun _ => "/proj/sub",
      fun _ => some "/root"⟩
    "utils.Helper" "/proj/sub/A.cfc"
  rw [hroot "/root" rfl (by decide) rfl]
  rfl

end CFML


namespace CFML

/-! ## Component attribute processing and application (component.ts, 151-312) -/

/-- character-list lowering of a string (JS `toLowerCase` over basic latin). -/
def toLowerStr (v : String) : String := String.mk (v.toList.map Char.toLower)

/-- JS `value.split(sep)` for a one-character separator, over the character
list. -/
def splitOnChar (sep : Char) : List Char → List (List Char)
  | [] => [[]]
  | c :: rest =>
    let r := splitOnChar sep rest
    if c = sep then [] :: r
    else
      match r with
      | [] => [[c]]
      | h :: t => (c :: h) :: t

/-- JS whitespace for `trim` (the characters relevant to this code base). -/
def isJsSpace (c : Char) : Bool := c = ' ' || c = '\t' || c = '\n' || c = '\r'

/-- JS `String.prototype.trim`. -/
def trimChars (cs : List Char) : List Char :=
  ((cs.dropWhile isJsSpace).reverse.dropWhile isJsSpace).reverse

/-- a processed attribute value: boolean-coerced for the keys in
`booleanAttributes`, otherwise the raw string. -/
inductive AttrVal
  | s (v : String)
  | b (v : Bool)
deriving DecidableEq, Repr

/-- JS truthiness of a `ComponentAttributes` entry, as tested by
`if (componentAttributes[propName])`: a boolean is itself, a string is truthy
when non-empty. -/
def attrTruthy : AttrVal → Bool
  | .s v => !(v == "")
  | .b v => v

/-- the string carried by an attribute value (the `extends`/`implements`
values are never boolean-coerced, so `.b` is unreachable at their use
sites). -/
def strOf : AttrVal → String
  | .s v => v
  | .b v => if v then "true" else "false"

/-- `booleanAttributes` of component.ts. -/
def booleanAttributes : List String :=
  ["accessors", "autoindex", "indexable", "mappedsuperclass", "output", "persistent",
   "rest", "serializable"]

/-- `componentAttributeNames` of component.ts (the allow-list handed to the
external attribute parser). -/
def componentAttributeNames : List String :=
  ["accessors", "alias", "autoindex", "bindingname", "consumes", "displayname", "extends",
   "hint", "httpmethod", "implements", "indexable", "indexlanguage", "initmethod",
   "mappedsuperclass", "namespace", "output", "persistent", "porttypename", "produces",
   "rest", "restPath", "serializable", "serviceaddress", "serviceportname", "style",
   "wsdlfile", "wsVersion"]

/-- Modelled from the spec: `DataType.isTruthy` (entities/dataType.ts, not
under src/) — the shared case-insensitive truthy-string predicate
("true"/"yes"/"1" class of values). -/
def isTruthy (v : String) : Bool :=
  let l := toLowerStr v
  l == "true" || l == "yes" || l == "1"

/-- `processDocBlock`: boolean-coerce the values of boolean keys, keep the
rest as strings (the doc-block parser output is modelled as a key/value
list). -/
def processDocBlock (docBlock : List (String × String)) : List (String × AttrVal) :=
  docBlock.map (fun kv =>
    if kv.1 ∈ booleanAttributes then (kv.1, AttrVal.b (isTruthy kv.2))
    else (kv.1, AttrVal.s kv.2))

/-- `processAttributes`: same coercion for the attribute-parser output. -/
def processAttributes (attributes : List (String × String)) : List (String × AttrVal) :=
  attributes.map (fun kv =>
    if kv.1 ∈ booleanAttributes then (kv.1, AttrVal.b (isTruthy kv.2))
    else (kv.1, AttrVal.s kv.2))

/-- the two `Object.assign` merges onto `componentAttributes`: doc-block
entries first, tag attributes second; a later entry wins on key collision. -/
def mergedComponentAttributes (docBlock tagAttrs : List (String × String)) :
    List (String × AttrVal) :=
  processDocBlock docBlock ++ processAttributes tagAttrs

/-- `componentAttributes[key]` after the merges: the latest assignment. -/
def lookupAttr (attrs : List (String × AttrVal)) (k : String) : Option AttrVal :=
  (attrs.reverse.find? (fun kv => kv.1 == k)).map (fun kv => kv.2)

/-- the attribute-relevant fields of the `component` record built by
`parseComponent` (the remaining fields — uri, name, ranges, functions,
properties, variables — are never written by the application loop). -/
structure ComponentRec where
  isScript : Bool
  isInterface : Bool
  displayname : String
  hint : String
  accessors : Bool
  extendsUri : Option String
  implementsUris : Option (List String)
deriving DecidableEq, Repr

/-- the component object literal's static defaults. -/
def initialComponent (isScript isInterface : Bool) : ComponentRec :=
  ⟨isScript, isInterface, "", "", false, none, none⟩

/-- `Object.getOwnPropertyNames(component)`: the insertion order of the
component object literal (component.ts lines 174-188).  Note that
`persistent` is not a property of the component object. -/
def componentPropNames : List String :=
  ["uri", "name", "isScript", "isInterface", "declarationRange", "displayname", "hint",
   "extends", "implements", "accessors", "functions", "properties", "variables"]

/-- the generic assignment `component[propName] = componentAttributes[propName]`
restricted to the modelled fields; `accessors` is always boolean-coerced
before it gets here, so the string case leaves the record unchanged. -/
def setComponentProp (c : ComponentRec) (n : String) (v : AttrVal) : ComponentRec :=
  if n = "displayname" then { c with displayname := strOf v }
  else if n = "hint" then { c with hint := strOf v }
  else if n = "accessors" then
    (match v with
     | .b bv => { c with accessors := bv }
     | .s _ => c)
  else c

/-- the `implements` handling: split on commas, resolve each trimmed segment
independently, keep only the successfully resolved references. -/
def resolveImplements (resolve : String → Option String) (value : String)
    (acc0 : Option (List String)) : Option (List String) :=
  (splitOnChar ',' value.toList).foldl
    (fun acc element =>
      match resolve (String.mk (trimChars element)) with
      | some u => some (acc.getD [] ++ [u])
      | none => acc)
    acc0

/-- the attribute application loop of `parseComponent` (component.ts lines
234-254): for each property name of the component object with a truthy
attribute value, resolve `extends`, split/resolve/keep-successful for
`implements`, force `accessors` for `persistent` (dead: `persistent` is not a
component property name), and plainly assign otherwise.  `resolve` stands for
`componentPathToUri` applied at the document's URI. -/
def applyComponentAttributes (resolve : String → Option String)
    (c0 : ComponentRec) (attrs : List (String × AttrVal)) : ComponentRec :=
  componentPropNames.foldl
    (fun comp propName =>
      match lookupAttr attrs propName with
      | none => comp
      | some v =>
        if attrTruthy v then
          if propName = "extends" then { comp with extendsUri := resolve (strOf v) }
          else if propName = "implements" then
            { comp with implementsUris := resolveImplements resolve (strOf v) comp.implementsUris }
          else if propName = "persistent" ∧ (lookupAttr attrs "persistent").any attrTruthy then
            { comp with accessors := true }
          else setComponentProp comp propName v
        else comp)
    c0

/-- Claim C1 (code bug): for the head `<cfcomponent extends="pkg.Base"
persistent="true">` the boolean-coerced `persistent` attribute is truthy,
and the application loop does resolve `extends` — yet the resulting
component still has `accessors = false`, because the loop iterates
`Object.getOwnPropertyNames(component)`, which does not contain
`persistent`, leaving the `persistent → accessors := true` branch dead. -/
theorem C1_persistent_does_not_force_accessors :
    attrTruthy (AttrVal.b (isTruthy "true")) = true ∧
    (applyComponentAttributes (fun _ => some "/proj/pkg/Base.cfc")
        (initialComponent false false)
        (mergedComponentAttributes [] [("extends", "pkg.Base"), ("persistent", "true")])).extendsUri
      = some "/proj/pkg/Base.cfc" ∧
    (applyComponentAttributes (fun _ => some "/proj/pkg/Base.cfc")
        (initialComponent false false)
        (mergedComponentAttributes [] [("extends", "pkg.Base"), ("persistent", "true")])).accessors
      = false := by
  refine ⟨by decide, by decide, by decide⟩

end CFML

namespace CFML

/-! ## `BackwardIterator` and `readArguments` (contextUtil.ts, 48-101, 740-786)

The backward iterator is modelled by the stream of character codes its
`next()` calls yield: the characters before the start position in reverse
document order, a synthetic `NEW_LINE` (10) between lines, and a final
`BOF` (0) when the iterator steps past the first line — after which
`hasNext()` is false, i.e. the stream is exhausted. -/

/-- char-code constants of contextUtil.ts. -/
def LEFT_BRACKET : Nat := 91

/-- the closing bracket `]`. -/
def RIGHT_BRACKET : Nat := 93

/-- the opening brace. -/
def LEFT_BRACE : Nat := 123

/-- the closing brace. -/
def RIGHT_BRACE : Nat := 125

/-- the opening paren. -/
def LEFT_PAREN : Nat := 40

/-- the closing paren. -/
def RIGHT_PAREN : Nat := 41

/-- the comma. -/
def COMMA : Nat := 44

/-- the single quote. -/
def SINGLE_QUOTE : Nat := 39

/-- the double quote. -/
def DOUBLE_QUOTE : Nat := 34

/-- the code stream a `BackwardIterator` positioned at `(line, char)` over
the given lines will yield. -/
def backwardStream (lines : List String) (line char : Nat) : List Nat :=
  let flat :=
    (if line = 0 then [] else (String.intercalate "\n" (lines.take line)).toList ++ ['\n']) ++
      ((lines.getD line "").toList.take (char + 1))
  (flat.reverse.map Char.toNat) ++ [0]

/-- the inner `while` of the quote case of `readArguments`: consume backward
until the matching quote code reappears (no escape handling), returning the
prepended characters (in final `currArg` order) and the remaining stream. -/
def consumeQuoted : List Nat → Nat → (List Char × List Nat)
  | [], _ => ([], [])
  | nch :: rest, q =>
    if nch = q then ([Char.ofNat nch], rest)
    else
      let r := consumeQuoted rest q
      (r.1 ++ [Char.ofNat nch], r.2)

theorem consumeQuoted_length_le : ∀ (s : List Nat) (q : Nat),
    (consumeQuoted s q).2.length ≤ s.length := by
  intro s q
  induction s with
  | nil => simp [consumeQuoted]
  | cons nch rest ih =>
    unfold consumeQuoted
    split_ifs with h
    · simp
    · simpa using Nat.le_succ_of_le ih

/-- the `while (iterator.hasNext())` loop of `readArguments`, one case per
`switch` arm; nesting counters are signed.  Running off the stream (the
iterator exhausted) returns `[]`, discarding `allArgs` and `currArg`;  the
only non-empty return happens in the `LEFT_PAREN` arm when `parenNesting`
just went negative. -/
def readArgsLoop : List Nat → Int → Int → Int → List String → List Char → List String
  | [], _, _, _, _, _ => []
  | ch :: rest, parenNesting, bracketNesting, braceNesting, allArgs, currArg =>
    let currArg1 := Char.ofNat ch :: currArg
    if ch = LEFT_PAREN then
      (if parenNesting - 1 < 0 then
        String.mk (trimChars (currArg1.drop 1)) :: allArgs
      else readArgsLoop rest (parenNesting - 1) bracketNesting braceNesting allArgs currArg1)
    else if ch = RIGHT_PAREN then
      readArgsLoop rest (parenNesting + 1) bracketNesting braceNesting allArgs currArg1
    else if ch = LEFT_BRACE then
      readArgsLoop rest parenNesting bracketNesting (braceNesting - 1) allArgs currArg1
    else if ch = RIGHT_BRACE then
      readArgsLoop rest parenNesting bracketNesting (braceNesting + 1) allArgs currArg1
    else if ch = LEFT_BRACKET then
      readArgsLoop rest parenNesting (bracketNesting - 1) braceNesting allArgs currArg1
    else if ch = RIGHT_BRACKET then
      readArgsLoop rest parenNesting (bracketNesting + 1) braceNesting allArgs currArg1
    else if ch = DOUBLE_QUOTE ∨ ch = SINGLE_QUOTE then
      readArgsLoop (consumeQuoted rest ch).2 parenNesting bracketNesting braceNesting allArgs
        ((consumeQuoted rest ch).1 ++ Char.ofNat ch :: currArg1)
    else if ch = COMMA then
      (if parenNesting = 0 ∧ bracketNesting = 0 ∧ braceNesting = 0 then
        readArgsLoop rest parenNesting bracketNesting braceNesting
          (String.mk (trimChars (currArg1.drop 1)) :: allArgs) []
      else readArgsLoop rest parenNesting bracketNesting braceNesting allArgs currArg1)
    else readArgsLoop rest parenNesting bracketNesting braceNesting allArgs currArg1
termination_by s _ _ _ _ _ => s.length
decreasing_by
  all_goals simp_wf
  all_goals first
    | exact Nat.lt_succ_of_le (consumeQuoted_length_le _ _)
    | omega

/-- `readArguments` of contextUtil.ts, over the iterator's yield stream. -/
def readArguments (stream : List Nat) : List String :=
  readArgsLoop stream 0 0 0 [] []

/-- specification side of claim C10: whether the scan reaches an unmatched
opening parenthesis — the `LEFT_PAREN` arm with the signed count going
negative — before the stream (iterator) is exhausted.  Only the paren count
and the quote skipping influence this. -/
def hitsOpenParen : List Nat → Int → Bool
  | [], _ => false
  | ch :: rest, parenNesting =>
    if ch = LEFT_PAREN then
      (if parenNesting - 1 < 0 then true else hitsOpenParen rest (parenNesting - 1))
    else if ch = DOUBLE_QUOTE ∨ ch = SINGLE_QUOTE then
      hitsOpenParen (consumeQuoted rest ch).2 parenNesting
    else if ch = RIGHT_PAREN then hitsOpenParen rest (parenNesting + 1)
    else hitsOpenParen rest parenNesting
termination_by s _ => s.length
decreasing_by
  all_goals simp_wf
  all_goals first
    | exact Nat.lt_succ_of_le (consumeQuoted_length_le _ _)
    | omega

theorem readArgsLoop_spec : ∀ (n : Nat) (s : List Nat), s.length ≤ n →
    ∀ (p bk br : Int) (A : List String) (C : List Char),
    (hitsOpenParen s p = false → readArgsLoop s p bk br A C = []) ∧
    (hitsOpenParen s p = true → readArgsLoop s p bk br A C ≠ []) := by
  intro n
  induction n with
  | zero =>
    intro s hs p bk br A C
    have : s = [] := List.length_eq_zero.mp (Nat.le_zero.mp hs)
    subst this
    exact ⟨fun _ => by rw [readArgsLoop], fun h => by rw [hitsOpenParen] at h; cases h⟩
  | succ n ihn =>
    intro s hs p bk br A C
    match s with
    | [] => exact ⟨fun _ => by rw [readArgsLoop], fun h => by rw [hitsOpenParen] at h; cases h⟩
    | ch :: rest =>
      have hrest : rest.length ≤ n := by
        simpa using Nat.lt_succ_iff.mp (Nat.lt_of_lt_of_le (by simp) hs)
      have hq : (consumeQuoted rest ch).2.length ≤ n :=
        le_trans (consumeQuoted_length_le rest ch) hrest
      rw [readArgsLoop, hitsOpenParen]
      by_cases h1 : ch = LEFT_PAREN
      · simp only [if_pos h1]
        by_cases h2 : p - 1 < 0
        · simp only [if_pos h2]
          exact ⟨fun hf => absurd hf (by decide), fun _ => by simp⟩
        · simp only [if_neg h2]
          exact ihn rest hrest (p - 1) bk br A _
      · by_cases h8 : ch = DOUBLE_QUOTE ∨ ch = SINGLE_QUOTE
        · have h3 : ¬ch = RIGHT_PAREN := by
            rcases h8 with h | h <;> subst h <;> decide
          have h4 : ¬ch = LEFT_BRACE := by
            rcases h8 with h | h <;> subst h <;> decide
          have h5 : ¬ch = RIGHT_BRACE := by
            rcases h8 with h | h <;> subst h <;> decide
          have h6 : ¬ch = LEFT_BRACKET := by
            rcases h8 with h | h <;> subst h <;> decide
          have h7 : ¬ch = RIGHT_BRACKET := by
            rcases h8 with h | h <;> subst h <;> decide
          simp only [if_neg h1, if_neg h3, if_neg h4, if_neg h5, if_neg h6, if_neg h7,
            if_pos h8]
          exact ihn _ hq p bk br A _
        · by_cases h3 : ch = RIGHT_PAREN
          · simp only [if_neg h1, if_neg h8, if_pos h3]
            exact ihn rest hrest (p + 1) bk br A _
          · by_cases h4 : ch = LEFT_BRACE
            · simp only [if_neg h1, if_neg h8, if_neg h3, if_pos h4]
              exact ihn rest hrest p bk (br - 1) A _
            · by_cases h5 : ch = RIGHT_BRACE
              · simp only [if_neg h1, if_neg h8, if_neg h3, if_neg h4, if_pos h5]
                exact ihn rest hrest p bk (br + 1) A _
              · by_cases h6 : ch = LEFT_BRACKET
                · simp only [if_neg h1, if_neg h8, if_neg h3, if_neg h4, if_neg h5, if_pos h6]
                  exact ihn rest hrest p (bk - 1) br A _
                · by_cases h7 : ch = RIGHT_BRACKET
                  · simp only [if_neg h1, if_neg h8, if_neg h3, if_neg h4, if_neg h5,
                      if_neg h6, if_pos h7]
                    exact ihn rest hrest p (bk + 1) br A _
                  · by_cases h9 : ch = COMMA
                    · simp only [if_neg h1, if_neg h8, if_neg h3, if_neg h4, if_neg h5,
                        if_neg h6, if_neg h7, if_pos h9]
                      by_cases h10 : p = 0 ∧ bk = 0 ∧ br = 0
                      · simp only [if_pos h10]
                        exact ihn rest hrest p bk br _ _
                      · simp only [if_neg h10]
                        exact ihn rest hrest p bk br A _
                    · simp only [if_neg h1, if_neg h8, if_neg h3, if_neg h4, if_neg h5,
                        if_neg h6, if_neg h7, if_neg h9]
                      exact ihn rest hrest p bk br A _

/-- Claim C10: if the backward iterator is exhausted before the unmatched
opening parenthesis is found (the signed paren count never goes negative),
`readArguments` returns the empty list, discarding every argument collected;
a non-empty argument list is returned only upon reaching the opening
parenthesis that makes the count negative. -/
theorem C10_readArguments_empty_without_open_paren (stream : List Nat) :
    (hitsOpenParen stream 0 = false → readArguments stream = []) ∧
    (readArguments stream ≠ [] → hitsOpenParen stream 0 = true) := by
  have h := readArgsLoop_spec stream.length stream (le_refl _) 0 0 0 [] []
  refine ⟨h.1, fun hne => ?_⟩
  cases hh : hitsOpenParen stream 0
  · exact absurd (h.1 hh) hne
  · rfl

/-- concrete instance of C10: iterating backward from the end of `(x)` the
parens balance, the iterator reaches the beginning of the document, and
`readArguments` returns the empty list. -/
theorem C10_witness : readArguments (backwardStream ["(x)"] 0 2) = [] := by
  apply (C10_readArguments_empty_without_open_paren (backwardStream ["(x)"] 0 2)).1
  have hs : backwardStream ["(x)"] 0 2 = [41, 120, 40, 0] := by decide
  rw [hs]
  simp [hitsOpenParen, LEFT_PAREN, RIGHT_PAREN, DOUBLE_QUOTE, SINGLE_QUOTE]

end CFML

namespace CFML

/-! ## Sortedness of the accurate script-mode comment scan (claim C4) -/

theorem isBeforeOrEqual_refl (p : Pos) : p.isBeforeOrEqual p = true := by
  simp [Pos.isBeforeOrEqual]

theorem isBeforeOrEqual_trans {p q r : Pos} (h1 : p.isBeforeOrEqual q = true)
    (h2 : q.isBeforeOrEqual r = true) : p.isBeforeOrEqual r = true := by
  simp only [Pos.isBeforeOrEqual, Bool.or_eq_true, Bool.and_eq_true,
    decide_eq_true_eq] at h1 h2 ⊢
  omega

theorem matchesFront_length : ∀ (p l : List Char), matchesFront p l = true →
    p.length ≤ l.length := by
  intro p
  induction p with
  | nil => intro l _; simp
  | cons x xs ih =>
    intro l hml
    cases l with
    | nil => simp [matchesFront] at hml
    | cons c cs =>
      simp only [matchesFront, Bool.and_eq_true] at hml
      have := ih cs hml.2
      simp only [List.length_cons]
      omega

theorem listEndsWith_length {l pat : List Char} (h : listEndsWith l pat = true) :
    pat.length ≤ l.length := by
  have := matchesFront_length pat.reverse l h
  simpa using this

theorem posAt_le_succ (doc : List Char) (o : Nat) :
    (posAt doc o).isBeforeOrEqual (posAt doc (o + 1)) = true := by
  by_cases h : o < doc.length
  · obtain ⟨c, hc⟩ : ∃ c, doc[o]? = some c :=
      ⟨doc.get ⟨o, h⟩, List.getElem?_eq_getElem h⟩
    have ht : doc.take (o + 1) = doc.take o ++ [c] := by
      rw [List.take_succ, hc]
      rfl
    unfold posAt
    rw [ht]
    by_cases hnl : c = '\n'
    · subst hnl
      simp only [Pos.isBeforeOrEqual, List.count_append, Bool.or_eq_true,
        Bool.and_eq_true, decide_eq_true_eq]
      left
      simp [List.count_singleton]
    · simp only [Pos.isBeforeOrEqual, List.count_append, List.reverse_append,
        List.reverse_singleton, List.singleton_append, List.takeWhile_cons,
        Bool.or_eq_true, Bool.and_eq_true, decide_eq_true_eq]
      have hcount : List.count '\n' [c] = 0 := by
        simp [List.count_cons, hnl]
      rw [hcount]
      simp [hnl]
  · have hle : doc.length ≤ o := by omega
    have ht : doc.take (o + 1) = doc.take o := by
      rw [List.take_all_of_le (by omega), List.take_all_of_le hle]
    unfold posAt
    rw [ht]
    exact isBeforeOrEqual_refl _

theorem posAt_mono (doc : List Char) {a b : Nat} (hab : a ≤ b) :
    (posAt doc a).isBeforeOrEqual (posAt doc b) = true := by
  induction b with
  | zero =>
    have : a = 0 := by omega
    subst this
    exact isBeforeOrEqual_refl _
  | succ n ih =>
    by_cases han : a = n + 1
    · subst han
      exact isBeforeOrEqual_refl _
    · exact isBeforeOrEqual_trans (ih (by omega)) (posAt_le_succ doc n)

theorem sortedByDocumentOrder_snoc {rs : List Rng} {r : Rng}
    (h : sortedByDocumentOrder rs)
    (hall : ∀ x ∈ rs, x.start.isBeforeOrEqual r.start = true ∧
      x.stop.isBeforeOrEqual r.stop = true) :
    sortedByDocumentOrder (rs ++ [r]) := by
  unfold sortedByDocumentOrder at h ⊢
  rw [List.pairwise_append]
  refine ⟨h, List.pairwise_singleton _ _, fun a ha b hb => ?_⟩
  rw [List.mem_singleton] at hb
  subst hb
  exact hall a ha

end CFML

namespace CFML

/-- the inductive invariant of one accurate script-mode scan pass starting at
offset `s`, holding before the iteration at offset `o`: `previousPosition`
trails the cursor by one offset, the accumulated line text is no longer than
the window scanned so far, the pushed ranges are sorted, and every pushed
range (and any open comment start) is the image under `posAt` of offsets
bounded by the comment-open offset `op` (while a comment is open) or by `o`. -/
structure ScanInv (doc : List Char) (s o : Nat) (st : CommentScanState) : Prop where
  prev_none : o = s → st.prevPos = none
  prev_some : s < o → st.prevPos = some (posAt doc (o - 1))
  line_len : st.lineRev.length ≤ o - s
  sorted : sortedByDocumentOrder st.ranges
  bounds_in : st.commentContext.inComment = true →
      ∃ op, s + 1 ≤ op ∧ op + 1 ≤ o ∧
        st.commentContext.start = some (posAt doc (op - 1)) ∧
        ∀ r ∈ st.ranges, ∃ a b, a < b ∧ a + 1 ≤ op ∧ b ≤ op ∧
          r.start = posAt doc a ∧ r.stop = posAt doc b
  bounds_out : st.commentContext.inComment = false →
      ∀ r ∈ st.ranges, ∃ a b, a < b ∧ b ≤ o ∧
        r.start = posAt doc a ∧ r.stop = posAt doc b

theorem ScanInv.idle (doc : List Char) (s o : Nat) {st : CommentScanState}
    (hso : s ≤ o) (h : ScanInv doc s o st)
    (newString : StringContext) (newLineRev : List Char)
    (hlen : newLineRev.length ≤ o + 1 - s) :
    ScanInv doc s (o + 1)
      { commentContext := st.commentContext, stringContext := newString,
        lineRev := newLineRev, prevPos := some (posAt doc o), ranges := st.ranges } := by
  refine ⟨fun he => absurd he (by omega), fun _ => by simp, hlen, h.sorted, ?_, ?_⟩
  · intro hin
    obtain ⟨op, h1, h2, h3, h4⟩ := h.bounds_in hin
    exact ⟨op, h1, by omega, h3, h4⟩
  · intro hout r hr
    obtain ⟨a, b, hab, hb, hs1, he1⟩ := h.bounds_out hout r hr
    exact ⟨a, b, hab, by omega, hs1, he1⟩

theorem ScanInv.closePush (doc : List Char) (s o : Nat) {st : CommentScanState}
    (hso : s ≤ o) (h : ScanInv doc s o st)
    (op b2 : Nat) (hop1 : s + 1 ≤ op) (hop2 : op + 1 ≤ o)
    (hb1 : op ≤ b2) (hb2 : op - 1 < b2) (hb3 : b2 ≤ o + 1)
    (hball : ∀ r ∈ st.ranges, ∃ a b, a < b ∧ a + 1 ≤ op ∧ b ≤ op ∧
      r.start = posAt doc a ∧ r.stop = posAt doc b)
    (newLineRev : List Char) (hlen : newLineRev.length ≤ o + 1 - s) :
    ScanInv doc s (o + 1)
      { commentContext := noComment, stringContext := st.stringContext,
        lineRev := newLineRev, prevPos := some (posAt doc o),
        ranges := st.ranges ++ [⟨posAt doc (op - 1), posAt doc b2⟩] } := by
  refine ⟨fun he => absurd he (by omega), fun _ => by simp, hlen, ?_,
    fun hin2 => by simp [noComment] at hin2, fun _ r hr => ?_⟩
  · refine sortedByDocumentOrder_snoc h.sorted (fun x hx => ?_)
    obtain ⟨a, b, hab, ha, hb, hxs, hxe⟩ := hball x hx
    rw [hxs, hxe]
    exact ⟨posAt_mono doc (by omega), posAt_mono doc (by omega)⟩
  · rcases List.mem_append.mp hr with hr | hr
    · obtain ⟨a, b, hab, ha, hb, hxs, hxe⟩ := hball r hr
      exact ⟨a, b, hab, by omega, hxs, hxe⟩
    · rw [List.mem_singleton] at hr
      subst hr
      exact ⟨op - 1, b2, by omega, by omega, rfl, rfl⟩

theorem ScanInv.openComment (doc : List Char) (s o : Nat) {st : CommentScanState}
    (hso : s ≤ o) (h : ScanInv doc s o st)
    (hout : st.commentContext.inComment = false) (hlo : s < o)
    (newDelim : Option CommentDelim) (newType : Option CommentType)
    (newLineRev : List Char) (hlen : newLineRev.length ≤ o + 1 - s) :
    ScanInv doc s (o + 1)
      { commentContext := ⟨true, newDelim, newType, st.prevPos⟩,
        stringContext := st.stringContext, lineRev := newLineRev,
        prevPos := some (posAt doc o), ranges := st.ranges } := by
  refine ⟨fun he => absurd he (by omega), fun _ => by simp, hlen, h.sorted, ?_, ?_⟩
  · intro _
    refine ⟨o, by omega, by omega, ?_, ?_⟩
    · exact h.prev_some hlo
    · intro r hr
      obtain ⟨a, b, hab, hb, hs1, he1⟩ := h.bounds_out hout r hr
      exact ⟨a, b, hab, by omega, by omega, hs1, he1⟩
  · intro habs
    simp at habs

end CFML

namespace CFML

theorem commentScanStep_script_inv (doc : List Char) (s o : Nat) (st : CommentScanState)
    (hso : s ≤ o) (h : ScanInv doc s o st) :
    ScanInv doc s (o + 1) (commentScanStep doc true o st) := by
  unfold commentScanStep
  dsimp only
  split_ifs
  · obtain ⟨op, hop1, hop2, hstart, hball⟩ := h.bounds_in (by assumption)
    have hp : st.prevPos = some (posAt doc (o - 1)) := h.prev_some (by omega)
    rw [hp, hstart]
    exact ScanInv.closePush doc s o hso h op (o - 1) hop1 hop2 (by omega) (by omega)
      (by omega) hball [charAt doc o] (by simp; omega)
  · exact absurd (And.right (by assumption :
      st.commentContext.commentType = some CommentType.Line ∧
        (match st.prevPos with
         | some p => decide ((posAt doc o).line ≠ p.line)
         | none => false) = true)) (by assumption)
  · obtain ⟨op, hop1, hop2, hstart, hball⟩ := h.bounds_in (by assumption)
    rw [hstart]
    exact ScanInv.closePush doc s o hso h op (o + 1) hop1 hop2 (by omega) (by omega)
      (by omega) hball [charAt doc o] (by simp; omega)
  · exact ScanInv.idle doc s o hso h st.stringContext [charAt doc o] (by simp; omega)
  · obtain ⟨op, hop1, hop2, hstart, hball⟩ := h.bounds_in (by assumption)
    rw [hstart]
    exact ScanInv.closePush doc s o hso h op (o + 1) hop1 hop2 (by omega) (by omega)
      (by omega) hball (charAt doc o :: st.lineRev) (by have := h.line_len; simp; omega)
  · exact ScanInv.idle doc s o hso h st.stringContext (charAt doc o :: st.lineRev)
      (by have := h.line_len; simp; omega)
  · exact ScanInv.idle doc s o hso h (inStringStep st.stringContext (charAt doc o))
      [charAt doc o] (by simp; omega)
  · exact ScanInv.idle doc s o hso h (inStringStep st.stringContext (charAt doc o))
      (charAt doc o :: st.lineRev) (by have := h.line_len; simp; omega)
  · exact ScanInv.idle doc s o hso h (openString (charAt doc o)) [charAt doc o]
      (by simp; omega)
  · exact ScanInv.idle doc s o hso h (openString (charAt doc o))
      (charAt doc o :: st.lineRev) (by have := h.line_len; simp; omega)
  · exact absurd (by assumption : listEndsWith [charAt doc o] scriptLineComment = true)
      (by simp [listEndsWith, scriptLineComment, matchesFront])
  · exact absurd (by assumption : listEndsWith [charAt doc o] scriptBlockComment.1 = true)
      (by simp [listEndsWith, scriptBlockComment, matchesFront])
  · exact ScanInv.idle doc s o hso h st.stringContext [charAt doc o] (by simp; omega)
  · have hout : st.commentContext.inComment = false := by
      simpa using (by assumption : ¬st.commentContext.inComment = true)
    have hlw := listEndsWith_length
      (by assumption : listEndsWith (charAt doc o :: st.lineRev) scriptLineComment = true)
    have hlo : s < o := by
      have := h.line_len
      simp [scriptLineComment] at hlw
      omega
    exact ScanInv.openComment doc s o hso h hout hlo _ _ _
      (by have := h.line_len; simp; omega)
  · have hout : st.commentContext.inComment = false := by
      simpa using (by assumption : ¬st.commentContext.inComment = true)
    have hlw := listEndsWith_length
      (by assumption : listEndsWith (charAt doc o :: st.lineRev) scriptBlockComment.1 = true)
    have hlo : s < o := by
      have := h.line_len
      simp [scriptBlockComment] at hlw
      omega
    exact ScanInv.openComment doc s o hso h hout hlo _ _ _
      (by have := h.line_len; simp; omega)
  · exact ScanInv.idle doc s o hso h st.stringContext (charAt doc o :: st.lineRev)
      (by have := h.line_len; simp; omega)
  · exact absurd rfl (by assumption)
  · exact absurd rfl (by assumption)
  · exact absurd rfl (by assumption)
  · exact absurd rfl (by assumption)

end CFML

namespace CFML

theorem commentScanAux_script_inv (doc : List Char) (s : Nat) :
    ∀ (fuel o : Nat) (st : CommentScanState), s ≤ o → ScanInv doc s o st →
      ScanInv doc s (o + fuel) (commentScanAux doc true fuel o st) := by
  intro fuel
  induction fuel with
  | zero =>
    intro o st _ h
    simpa using h
  | succ n ih =>
    intro o st hso h
    rw [commentScanAux]
    have h2 := ih (o + 1) (commentScanStep doc true o st) (by omega)
      (commentScanStep_script_inv doc s o st hso h)
    have heq : o + (n + 1) = (o + 1) + n := by omega
    rw [heq]
    exact h2

theorem initialCommentScanState_inv (doc : List Char) (s : Nat) :
    ScanInv doc s s initialCommentScanState := by
  refine ⟨fun _ => rfl, fun hlt => absurd hlt (by omega),
    by simp [initialCommentScanState], ?_, ?_, ?_⟩
  · simp [initialCommentScanState, sortedByDocumentOrder]
  · intro hin
    simp [initialCommentScanState, noComment] at hin
  · intro _ r hr
    simp [initialCommentScanState] at hr

theorem commentScanPass_script_sorted (doc : List Char) (s e : Nat) :
    sortedByDocumentOrder (commentScanPass doc true s e) := by
  exact (commentScanAux_script_inv doc s (e - s) s initialCommentScanState (le_refl s)
    (initialCommentScanState_inv doc s)).sorted

/-- Claim C4 (amended): in accurate mode over a script document or region
(`isScript = true`, a single forward pass), the list returned by
`getCommentRanges` is sorted by document order — starts and ends both
non-decreasing.  Neither non-overlap nor, in fast mode, sortedness holds in
general (see `C4_counterexample`). -/
theorem C4_accurate_script_mode_sorted (doc : List Char) (cfScriptRanges : List Rng)
    (docRange : Option Rng) :
    sortedByDocumentOrder (getCommentRanges doc true cfScriptRanges docRange false) := by
  exact commentScanPass_script_sorted doc _ _

end CFML
